import Mathlib

/-!
Shallow embedding of the `linRust` dense-matrix library (final implementation
in `src/matrix.rs`; `src/lib.rs` is an earlier snapshot of the same module).

Modelling conventions:
* `Vec<T>` is `List α`; `usize` indices are `Nat`.
* Rust indexing `v[i]` panics when out of bounds, so every loop that indexes a
  backing vector is embedded in the `Option` monad: `none` means the Rust code
  would panic, `some` is normal completion.  Reads are `l[i]?`; writes go
  through `listSet?` below.
* In-place methods (`set_values`, `add_mut`, `subtract`, `mult_scalar`) are
  embedded as state passing: the returned matrix is the post-state of `self`,
  paired with the `Option MatrixError` that mirrors the Rust `Result`.
* The element type's capability bound (`Add + Sub + Mul + Copy + Default +
  AddAssign + IdentityElement`) is rendered with the corresponding typeclasses;
  `Default::default()` and `IdentityElement::zero()` are both `(0 : α)`, which
  is exact for every impl in `src/identity_element.rs` (all integer widths and
  both float widths use the additive identity for both).
* `for i in 0..n` loops become `(List.range n).foldlM` over the loop state.
-/

deriving instance DecidableEq for Except

namespace LinRust

/-- Error taxonomy of `src/error.rs`: a closed two-variant set, each variant
carrying a human-readable context string. -/
inductive MatrixError where
  | DimensionMismatch : String → MatrixError
  | InvalidIndex : String → MatrixError
deriving DecidableEq

/-- The `Matrix<T>` container of `src/matrix.rs`: an explicit shape plus a
row-major backing vector. -/
structure Matrix (α : Type) where
  rows : Nat
  cols : Nat
  values : List α
deriving DecidableEq

variable {α : Type}

/-- Rust `v[i] = a` on a `Vec`: the write succeeds in bounds and panics
(modelled as `none`) out of bounds. -/
def listSet? (l : List α) (i : Nat) (a : α) : Option (List α) :=
  if i < l.length then some (l.set i a) else none

/-- `Matrix::new` — stores the three fields verbatim, with no validation. -/
def Matrix.new (rows cols : Nat) (values : List α) : Matrix α :=
  ⟨rows, cols, values⟩

/-- `Matrix::get_rows`. -/
def Matrix.get_rows (m : Matrix α) : Nat :=
  m.rows

/-- `Matrix::get_cols`. -/
def Matrix.get_cols (m : Matrix α) : Nat :=
  m.cols

/-- `Matrix::get_values`. -/
def Matrix.get_values (m : Matrix α) : List α :=
  m.values

/-- `Matrix::set_rows` — overwrites the row count with no re-validation. -/
def Matrix.set_rows (m : Matrix α) (new_rows : Nat) : Matrix α :=
  ⟨new_rows, m.cols, m.values⟩

/-- `Matrix::set_cols` — overwrites the column count with no re-validation. -/
def Matrix.set_cols (m : Matrix α) (new_cols : Nat) : Matrix α :=
  ⟨m.rows, new_cols, m.values⟩

/-- `Matrix::set_values` — replaces the backing vector only when the new
length matches `rows * cols`; otherwise leaves `self` untouched and reports
`DimensionMismatch`. -/
def Matrix.set_values (m : Matrix α) (new_values : List α) :
    Matrix α × Option MatrixError :=
  if new_values.length == m.rows * m.cols then
    (⟨m.rows, m.cols, new_values⟩, none)
  else
    (m, some (MatrixError.DimensionMismatch
      ("Matrix has capacity of " ++ toString (m.rows * m.cols) ++
        ", gave it " ++ toString new_values.length ++ " values")))

/-- `Matrix::value_at` — bounds-checked element access; the `Ok` payload is
read with a raw index (a panic would surface as `none`). -/
def Matrix.value_at (m : Matrix α) (row col : Nat) :
    Option (Except MatrixError α) :=
  if row < m.rows && col < m.cols then
    (m.values[(row * m.cols) + col]?).map Except.ok
  else
    some (Except.error (MatrixError.InvalidIndex
      ("Index (" ++ toString row ++ ", " ++ toString col ++
        ") is out of bounds for matrix of size " ++ toString m.rows ++ "x" ++
        toString m.cols)))

/-- `Matrix::add` — pure elementwise sum via `iter().zip(..).map(..)`, which
never indexes and hence never panics. -/
def Matrix.add [Add α] (m b : Matrix α) : Except MatrixError (Matrix α) :=
  if m.rows != b.rows || m.cols != b.cols then
    Except.error (MatrixError.DimensionMismatch
      ("Cannot add matrices of dimensions " ++ toString m.rows ++ "x" ++
        toString m.cols ++ " and " ++ toString b.rows ++ "x" ++
        toString b.cols))
  else
    Except.ok ⟨m.rows, m.cols, List.zipWith (fun x y => x + y) m.values b.values⟩

/-- `Matrix::add_mut` — in-place elementwise sum over `0..self.values.len()`,
indexing both vectors. -/
def Matrix.add_mut [Add α] (m b : Matrix α) :
    Option (Matrix α × Option MatrixError) :=
  if m.rows != b.rows || m.cols != b.cols then
    some (m, some (MatrixError.DimensionMismatch
      ("Cannot add matricies of dimensions " ++ toString m.rows ++ "x" ++
        toString m.cols ++ " and " ++ toString b.rows ++ "x" ++
        toString b.cols)))
  else
    ((List.range m.values.length).foldlM (fun v i => do
        let x ← v[i]?
        let y ← b.values[i]?
        listSet? v i (x + y)) m.values).map (fun v => (⟨m.rows, m.cols, v⟩, none))

/-- `Matrix::subtract` — in-place elementwise difference, same loop shape as
`add_mut`. -/
def Matrix.subtract [Sub α] (m b : Matrix α) :
    Option (Matrix α × Option MatrixError) :=
  if m.rows != b.rows || m.cols != b.cols then
    some (m, some (MatrixError.DimensionMismatch
      ("Cannot subtract matricies of dimensions " ++ toString m.rows ++ "x" ++
        toString m.cols ++ " and " ++ toString b.rows ++ "x" ++
        toString b.cols)))
  else
    ((List.range m.values.length).foldlM (fun v i => do
        let x ← v[i]?
        let y ← b.values[i]?
        listSet? v i (x - y)) m.values).map (fun v => (⟨m.rows, m.cols, v⟩, none))

/-- `Matrix::transpose` — allocates `vec![T::default(); rows * cols]` and
remaps `new_values[i * rows + j] = values[j * cols + i]` over all
`i < cols`, `j < rows`. -/
def Matrix.transpose [Zero α] (m : Matrix α) : Option (Matrix α) :=
  ((List.range m.cols).foldlM (fun v i =>
      (List.range m.rows).foldlM (fun v j => do
          let x ← m.values[j * m.cols + i]?
          listSet? v (i * m.rows + j) x) v)
    (List.replicate (m.rows * m.cols) (0 : α))).map
    (fun v => ⟨m.cols, m.rows, v⟩)

/-- `Matrix::mult_naive` — checks `self.cols == other.rows`, transposes the
right operand, then runs the triple loop accumulating each dot product with
`k` ascending from the `Default::default()` seed. -/
def Matrix.mult_naive [Zero α] [Add α] [Mul α] (m b : Matrix α) :
    Option (Except MatrixError (Matrix α)) :=
  if m.cols != b.rows then
    some (Except.error (MatrixError.DimensionMismatch
      ("Cannot multiply  matricies of dimensions " ++ toString m.rows ++ "x" ++
        toString m.cols ++ " and " ++ toString b.rows ++ "x" ++
        toString b.cols)))
  else do
    let bt ← b.transpose
    let v ← (List.range m.rows).foldlM (fun v i =>
        (List.range bt.rows).foldlM (fun v j => do
            let s ← (List.range m.cols).foldlM (fun sum k => do
                let x ← m.values[i * m.cols + k]?
                let y ← bt.values[j * bt.cols + k]?
                pure (sum + x * y)) (0 : α)
            listSet? v (i * b.cols + j) s) v)
      (List.replicate (m.rows * b.cols) (0 : α))
    pure (Except.ok ⟨m.rows, b.cols, v⟩)

/-- `Matrix::mult_scalar` — multiplies every element by `num` in place. -/
def Matrix.mult_scalar [Mul α] (m : Matrix α) (num : α) : Matrix α :=
  ⟨m.rows, m.cols, m.values.map (fun value => value * num)⟩

/-- `Matrix::identity` — allocates `vec![T::zero(); order * order]` and writes
`T::one()` at each diagonal flat index `i * order + i`. -/
def Matrix.identity (α : Type) [Zero α] [One α] (order : Nat) :
    Option (Matrix α) :=
  ((List.range order).foldlM (fun v i => listSet? v (i * order + i) (1 : α))
      (List.replicate (order * order) (0 : α))).map
    (fun v => ⟨order, order, v⟩)

/-- The data-model invariant of spec section 3: the backing vector has exactly
`rows * cols` elements. -/
def Inv (m : Matrix α) : Prop :=
  m.values.length = m.rows * m.cols

instance (m : Matrix α) : Decidable (Inv m) :=
  inferInstanceAs (Decidable (m.values.length = m.rows * m.cols))

/-! Arithmetic facts about row-major flat indices. -/

theorem flatIdx_lt {i j a b : Nat} (hi : i < a) (hj : j < b) :
    i * b + j < a * b :=
  calc i * b + j < i * b + b := Nat.add_lt_add_left hj _
  _ = (i + 1) * b := (Nat.succ_mul i b).symm
  _ ≤ a * b := Nat.mul_le_mul_right b hi

theorem flatIdx_inj {i j i2 j2 b : Nat} (hj : j < b) (hj2 : j2 < b)
    (h : i * b + j = i2 * b + j2) : i = i2 ∧ j = j2 := by
  have hb : 0 < b := Nat.lt_of_le_of_lt (Nat.zero_le j) hj
  have h2 : b * i + j = b * i2 + j2 := by
    rw [Nat.mul_comm b i, Nat.mul_comm b i2]; exact h
  have hmod : j = j2 := by
    have hc := congrArg (fun z => z % b) h2
    simpa [Nat.mul_add_mod, Nat.mod_eq_of_lt hj, Nat.mod_eq_of_lt hj2] using hc
  refine ⟨?_, hmod⟩
  subst hmod
  exact Nat.eq_of_mul_eq_mul_right hb (Nat.add_right_cancel h)

/-! Basic facts about the panic-visible vector write. -/

theorem listSet?_of_lt {l : List α} {i : Nat} (a : α) (h : i < l.length) :
    listSet? l i a = some (l.set i a) := by
  simp [listSet?, h]

/-- Any fold whose steps preserve the length of the loop state preserves it
overall; this is how the in-place loops keep `values.length` intact. -/
theorem foldlM_length_invariant (f : List α → Nat → Option (List α))
    (hf : ∀ v i v2, f v i = some v2 → v2.length = v.length) :
    ∀ (l : List Nat) (v0 v : List α), l.foldlM f v0 = some v → v.length = v0.length := by
  intro l
  induction l with
  | nil =>
    intro v0 v h
    simp only [List.foldlM_nil, pure, Option.some.injEq] at h
    simp [h]
  | cons a l ih =>
    intro v0 v h
    rw [List.foldlM_cons] at h
    obtain ⟨v1, h1, h2⟩ := Option.bind_eq_some.mp h
    exact (ih v1 v h2).trans (hf v0 a v1 h1)

/-- Characterization of a single `for` loop writing state-independent values
`w idx` at pairwise-distinct in-bounds targets `t idx`. -/
theorem foldlM_write_char (w : Nat → Option α) (t : Nat → Nat) :
    ∀ (n : Nat) (v0 : List α),
      (∀ idx, idx < n → t idx < v0.length) →
      (∀ idx, idx < n → (w idx).isSome) →
      (∀ i j, i < n → j < n → t i = t j → i = j) →
      ∃ v, (List.range n).foldlM (fun v idx => do
              let a ← w idx
              listSet? v (t idx) a) v0 = some v ∧
        v.length = v0.length ∧
        (∀ idx, idx < n → v[t idx]? = w idx) ∧
        (∀ p, (∀ idx, idx < n → t idx ≠ p) → v[p]? = v0[p]?) := by
  intro n
  induction n with
  | zero =>
    intro v0 _ _ _
    exact ⟨v0, by simp [List.range_zero, List.foldlM_nil], rfl,
      fun idx h => absurd h (Nat.not_lt_zero idx), fun p _ => rfl⟩
  | succ n ih =>
    intro v0 hb hw hinj
    obtain ⟨v, hv, hlen, hget, hkeep⟩ := ih v0
      (fun idx h => hb idx (Nat.lt_succ_of_lt h))
      (fun idx h => hw idx (Nat.lt_succ_of_lt h))
      (fun i j hi hj => hinj i j (Nat.lt_succ_of_lt hi) (Nat.lt_succ_of_lt hj))
    obtain ⟨a, ha⟩ := Option.isSome_iff_exists.mp (hw n (Nat.lt_succ_self n))
    have htn : t n < v.length := by rw [hlen]; exact hb n (Nat.lt_succ_self n)
    refine ⟨v.set (t n) a, ?_, by simp [hlen], ?_, ?_⟩
    · rw [List.range_succ, List.foldlM_append, hv]
      simp [List.foldlM_cons, List.foldlM_nil, ha, listSet?_of_lt a htn]
    · intro idx hidx
      rcases Nat.lt_succ_iff_lt_or_eq.mp hidx with hcase | hcase
      · have hne : t n ≠ t idx := by
          intro he
          have := hinj n idx (Nat.lt_succ_self n) (Nat.lt_succ_of_lt hcase) he
          omega
        rw [List.getElem?_set, if_neg hne]
        exact hget idx hcase
      · subst hcase
        rw [List.getElem?_set, if_pos rfl, if_pos htn, ha]
    · intro p hp
      rw [List.getElem?_set, if_neg (hp n (Nat.lt_succ_self n))]
      exact hkeep p (fun idx hidx => hp idx (Nat.lt_succ_of_lt hidx))

/-- Characterization of the doubly nested write loops used by `transpose` and
`mult_naive`: values `w i j` at pairwise-distinct in-bounds targets `t i j`. -/
theorem foldlM_write2_char (w : Nat → Nat → Option α) (t : Nat → Nat → Nat) (ni : Nat) :
    ∀ (n : Nat) (v0 : List α),
      (∀ i j, i < n → j < ni → t i j < v0.length) →
      (∀ i j, i < n → j < ni → (w i j).isSome) →
      (∀ i j i2 j2, i < n → j < ni → i2 < n → j2 < ni → t i j = t i2 j2 → i = i2 ∧ j = j2) →
      ∃ v, (List.range n).foldlM (fun v i =>
              (List.range ni).foldlM (fun v j => do
                  let a ← w i j
                  listSet? v (t i j) a) v) v0 = some v ∧
        v.length = v0.length ∧
        (∀ i j, i < n → j < ni → v[t i j]? = w i j) ∧
        (∀ p, (∀ i j, i < n → j < ni → t i j ≠ p) → v[p]? = v0[p]?) := by
  intro n
  induction n with
  | zero =>
    intro v0 _ _ _
    exact ⟨v0, by simp [List.range_zero, List.foldlM_nil], rfl,
      fun i j hi _ => absurd hi (Nat.not_lt_zero i), fun p _ => rfl⟩
  | succ n ih =>
    intro v0 hb hw hinj
    obtain ⟨v, hv, hlen, hget, hkeep⟩ := ih v0
      (fun i j hi hj => hb i j (Nat.lt_succ_of_lt hi) hj)
      (fun i j hi hj => hw i j (Nat.lt_succ_of_lt hi) hj)
      (fun i j i2 j2 hi hj hi2 hj2 =>
        hinj i j i2 j2 (Nat.lt_succ_of_lt hi) hj (Nat.lt_succ_of_lt hi2) hj2)
    obtain ⟨v2, hv2, hlen2, hget2, hkeep2⟩ := foldlM_write_char (w n) (t n) ni v
      (fun j hj => by rw [hlen]; exact hb n j (Nat.lt_succ_self n) hj)
      (fun j hj => hw n j (Nat.lt_succ_self n) hj)
      (fun j j2 hj hj2 he =>
        (hinj n j n j2 (Nat.lt_succ_self n) hj (Nat.lt_succ_self n) hj2 he).2)
    refine ⟨v2, ?_, hlen2.trans hlen, ?_, ?_⟩
    · rw [List.range_succ, List.foldlM_append, hv]
      simp only [List.foldlM_cons, List.foldlM_nil, Option.some_bind]
      simpa using hv2
    · intro i j hi hj
      rcases Nat.lt_succ_iff_lt_or_eq.mp hi with hcase | hcase
      · have huntouched : ∀ j2, j2 < ni → t n j2 ≠ t i j := by
          intro j2 hj2 he
          have := hinj n j2 i j (Nat.lt_succ_self n) hj2 (Nat.lt_succ_of_lt hcase) hj he
          omega
        rw [hkeep2 (t i j) huntouched]
        exact hget i j hcase hj
      · subst hcase
        exact hget2 j hj
    · intro p hp
      rw [hkeep2 p (fun j hj => hp n j (Nat.lt_succ_self n) hj)]
      exact hkeep p (fun i j hi hj => hp i j (Nat.lt_succ_of_lt hi) hj)

/-- Characterization of the innermost dot-product accumulation of
`mult_naive`: when every read is in bounds it completes, folding the products
with `k` ascending onto the seed. -/
theorem foldlM_dot_char [Zero α] [Add α] [Mul α] (l1 l2 : List α) (f g : Nat → Nat) :
    ∀ (n : Nat) (s0 : α),
      (∀ k, k < n → f k < l1.length) →
      (∀ k, k < n → g k < l2.length) →
      (List.range n).foldlM (fun sum k => do
          let x ← l1[f k]?
          let y ← l2[g k]?
          pure (sum + x * y)) s0
        = some ((List.range n).foldl
            (fun sum k => sum + l1.getD (f k) 0 * l2.getD (g k) 0) s0) := by
  intro n
  induction n with
  | zero => intro s0 _ _; simp [List.range_zero, List.foldlM_nil, List.foldl_nil]
  | succ n ih =>
    intro s0 h1 h2
    have hf := h1 n (Nat.lt_succ_self n)
    have hg := h2 n (Nat.lt_succ_self n)
    rw [List.range_succ, List.foldlM_append, List.foldl_append,
      ih s0 (fun k hk => h1 k (Nat.lt_succ_of_lt hk))
        (fun k hk => h2 k (Nat.lt_succ_of_lt hk))]
    simp [List.foldlM_cons, List.foldlM_nil, List.foldl_cons, List.foldl_nil,
      List.getElem?_eq_getElem hf, List.getElem?_eq_getElem hg,
      List.getD_eq_getElem?_getD]

/-- Characterization of the in-place elementwise loops of `add_mut` and
`subtract`: with equal-length operands they complete and produce the
index-for-index combination. -/
theorem foldlM_mut_aux (op : α → α → α) (a b : List α) (hb : b.length = a.length) :
    ∀ n, n ≤ a.length →
      ∃ v, (List.range n).foldlM (fun v i => do
          let x ← v[i]?
          let y ← b[i]?
          listSet? v i (op x y)) a = some v ∧
        v.length = a.length ∧
        (∀ p, p < n → v[p]? = (List.zipWith op a b)[p]?) ∧
        (∀ p, n ≤ p → v[p]? = a[p]?) := by
  intro n
  induction n with
  | zero =>
    intro _
    exact ⟨a, by simp [List.range_zero, List.foldlM_nil], rfl,
      fun p h => absurd h (Nat.not_lt_zero p), fun p _ => rfl⟩
  | succ n ih =>
    intro hn
    obtain ⟨v, hv, hlen, hlow, hhigh⟩ := ih (Nat.le_of_succ_le hn)
    have hna : n < a.length := hn
    have hnb : n < b.length := by omega
    have hx : v[n]? = some a[n] := by
      rw [hhigh n (Nat.le_refl n), List.getElem?_eq_getElem hna]
    have hy : b[n]? = some b[n] := List.getElem?_eq_getElem hnb
    have hnv : n < v.length := by rw [hlen]; exact hna
    refine ⟨v.set n (op a[n] b[n]), ?_, by simp [hlen], ?_, ?_⟩
    · rw [List.range_succ, List.foldlM_append, hv]
      simp [List.foldlM_cons, List.foldlM_nil, hx, hy, listSet?_of_lt _ hnv]
    · intro p hp
      rcases Nat.lt_succ_iff_lt_or_eq.mp hp with hcase | hcase
      · rw [List.getElem?_set, if_neg (by omega)]
        exact hlow p hcase
      · subst hcase
        rw [List.getElem?_set, if_pos rfl, if_pos hnv]
        rw [List.getElem?_zipWith, List.getElem?_eq_getElem hna,
          List.getElem?_eq_getElem hnb]
    · intro p hp
      rw [List.getElem?_set, if_neg (by omega)]
      exact hhigh p (by omega)

theorem foldlM_mut_char (op : α → α → α) (a b : List α) (hb : b.length = a.length) :
    (List.range a.length).foldlM (fun v i => do
        let x ← v[i]?
        let y ← b[i]?
        listSet? v i (op x y)) a = some (List.zipWith op a b) := by
  obtain ⟨v, hv, hlen, hlow, hhigh⟩ := foldlM_mut_aux op a b hb a.length (Nat.le_refl _)
  have : v = List.zipWith op a b := by
    apply List.ext_getElem?
    intro p
    by_cases hp : p < a.length
    · exact hlow p hp
    · rw [hhigh p (by omega), List.getElem?_eq_none (by omega),
        List.getElem?_eq_none (by simp [List.length_zipWith]; omega)]
  rw [hv, this]

/-- Evaluating the ascending fold of additions as a `Finset` sum. -/
theorem foldl_add_eq_sum [AddCommMonoid α] (h : Nat → α) :
    ∀ (n : Nat) (s0 : α),
      (List.range n).foldl (fun s k => s + h k) s0 = s0 + ∑ k ∈ Finset.range n, h k := by
  intro n
  induction n with
  | zero => intro s0; simp
  | succ n ih =>
    intro s0
    rw [List.range_succ, List.foldl_append, ih s0]
    simp [List.foldl_cons, List.foldl_nil, Finset.sum_range_succ, add_assoc]

/-- Reduces a bind whose left operand is known to be `some`. -/
theorem option_bind_eq {β γ : Type} {o : Option β} {x : β} (h : o = some x)
    (f : β → Option γ) : (o >>= f) = f x := by
  rw [h]; rfl

/-- Full characterization of `transpose` on a matrix satisfying the size
invariant: it completes, swaps the dimensions, and remaps every element. -/
theorem transpose_char [Zero α] (m : Matrix α) (h : Inv m) :
    ∃ tm, m.transpose = some tm ∧ tm.rows = m.cols ∧ tm.cols = m.rows ∧
      tm.values.length = m.rows * m.cols ∧
      ∀ i j, i < m.cols → j < m.rows →
        tm.values[i * m.rows + j]? = m.values[j * m.cols + i]? := by
  obtain ⟨v, hv, hlen, hget, _⟩ := foldlM_write2_char
    (fun i j => m.values[j * m.cols + i]?) (fun i j => i * m.rows + j)
    m.rows m.cols (List.replicate (m.rows * m.cols) (0 : α))
    (fun i j hi hj => by
      rw [List.length_replicate]
      exact lt_of_lt_of_eq (flatIdx_lt hi hj) (Nat.mul_comm m.cols m.rows))
    (fun i j hi hj => by
      have hlt : j * m.cols + i < m.values.length := by
        rw [h]; exact flatIdx_lt hj hi
      exact Option.isSome_iff_exists.mpr ⟨_, List.getElem?_eq_getElem hlt⟩)
    (fun i j i2 j2 hi hj hi2 hj2 he => flatIdx_inj hj hj2 he)
  refine ⟨⟨m.cols, m.rows, v⟩, ?_, rfl, rfl,
    hlen.trans (List.length_replicate _ _), hget⟩
  exact congrArg (Option.map fun v => Matrix.mk m.cols m.rows v) hv

/-- Full characterization of `identity`: the loop completes, and the result is
square with `one()` on the diagonal and `zero()` elsewhere. -/
theorem identity_char (α : Type) [Zero α] [One α] (order : Nat) :
    ∃ idm, Matrix.identity α order = some idm ∧ idm.rows = order ∧
      idm.cols = order ∧ idm.values.length = order * order ∧
      ∀ i j, i < order → j < order →
        idm.values[i * order + j]? = some (if i = j then (1 : α) else 0) := by
  obtain ⟨v, hv, hlen, hget, hkeep⟩ := foldlM_write_char (fun _ => some (1 : α))
    (fun i => i * order + i) order (List.replicate (order * order) (0 : α))
    (fun idx hidx => by rw [List.length_replicate]; exact flatIdx_lt hidx hidx)
    (fun idx _ => rfl)
    (fun i j hi hj he => (flatIdx_inj hi hj he).1)
  refine ⟨⟨order, order, v⟩, ?_, rfl, rfl,
    hlen.trans (List.length_replicate _ _), ?_⟩
  · exact congrArg (Option.map fun v => Matrix.mk order order v) hv
  · intro i j hi hj
    by_cases hij : i = j
    · subst hij
      rw [if_pos rfl]
      exact hget i hi
    · rw [if_neg hij]
      have huntouched : ∀ idx, idx < order → idx * order + idx ≠ i * order + j := by
        intro idx hidx he
        obtain ⟨h1, h2⟩ := flatIdx_inj hidx hj he
        exact hij (by omega)
      rw [hkeep _ huntouched, List.getElem?_replicate, if_pos (flatIdx_lt hi hj)]

/-- Full characterization of `mult_naive` when the shapes are compatible and
both operands satisfy the size invariant: it completes with shape
`(a.rows, b.cols)` and each output cell is the ascending-`k` accumulation of
`a(i, k) * b(k, j)` seeded with the default. -/
theorem mult_naive_char [Zero α] [Add α] [Mul α] (a b : Matrix α)
    (ha : Inv a) (hb : Inv b) (hdim : a.cols = b.rows) :
    ∃ c, a.mult_naive b = some (Except.ok c) ∧ c.rows = a.rows ∧
      c.cols = b.cols ∧ c.values.length = a.rows * b.cols ∧
      ∀ i j, i < a.rows → j < b.cols →
        c.values[i * b.cols + j]? =
          some ((List.range a.cols).foldl
            (fun sum k =>
              sum + a.values.getD (i * a.cols + k) 0 *
                b.values.getD (k * b.cols + j) 0) 0) := by
  obtain ⟨bt, hbt, hbtr, hbtc, hbtlen, hbtget⟩ := transpose_char b hb
  have hdot : ∀ i j, i < a.rows → j < bt.rows →
      (List.range a.cols).foldlM (fun sum k => do
          let x ← a.values[i * a.cols + k]?
          let y ← bt.values[j * bt.cols + k]?
          pure (sum + x * y)) (0 : α)
        = some ((List.range a.cols).foldl
            (fun sum k =>
              sum + a.values.getD (i * a.cols + k) 0 *
                b.values.getD (k * b.cols + j) 0) 0) := by
    intro i j hi hj
    have hj2 : j < b.cols := by rw [hbtr] at hj; exact hj
    rw [foldlM_dot_char a.values bt.values _ _ a.cols 0
      (fun k hk => by rw [ha]; exact flatIdx_lt hi hk)
      (fun k hk => by
        rw [hbtlen, hbtc]
        exact lt_of_lt_of_eq (flatIdx_lt hj2 (hdim ▸ hk))
          (Nat.mul_comm b.cols b.rows))]
    congr 1
    apply List.foldl_ext
    intro s k hk
    have hk2 : k < a.cols := List.mem_range.mp hk
    congr 1
    rw [List.getD_eq_getElem?_getD bt.values, List.getD_eq_getElem?_getD b.values,
      hbtc, hbtget j k hj2 (hdim ▸ hk2)]
  obtain ⟨v, hv, hlen, hget, _⟩ := foldlM_write2_char
    (fun i j => (List.range a.cols).foldlM (fun sum k => do
        let x ← a.values[i * a.cols + k]?
        let y ← bt.values[j * bt.cols + k]?
        pure (sum + x * y)) (0 : α))
    (fun i j => i * b.cols + j) bt.rows a.rows
    (List.replicate (a.rows * b.cols) (0 : α))
    (fun i j hi hj => by
      rw [List.length_replicate]
      exact flatIdx_lt hi (hbtr ▸ hj))
    (fun i j hi hj =>
      Option.isSome_iff_exists.mpr ⟨_, hdot i j hi hj⟩)
    (fun i j i2 j2 hi hj hi2 hj2 he =>
      flatIdx_inj (hbtr ▸ hj) (hbtr ▸ hj2) he)
  refine ⟨⟨a.rows, b.cols, v⟩, ?_, rfl, rfl,
    hlen.trans (List.length_replicate _ _), ?_⟩
  · have hcond : ¬((a.cols != b.rows) = true) := by simp [hdim]
    unfold Matrix.mult_naive
    rw [if_neg hcond]
    simp only [option_bind_eq hbt, option_bind_eq hv]
    rfl
  · intro i j hi hj
    have hj2 : j < bt.rows := by rw [hbtr]; exact hj
    exact (hget i j hi hj2).trans (hdot i j hi hj2)

/-- Two matrices with equal fields are equal. -/
theorem Matrix.eq_of_fields {m1 m2 : Matrix α} (hr : m1.rows = m2.rows)
    (hc : m1.cols = m2.cols) (hv : m1.values = m2.values) : m1 = m2 := by
  cases m1; cases m2; cases hr; cases hc; cases hv; rfl

/-- Pointwise cancellation law used for the subtraction-inverse claim. -/
theorem zipWith_add_sub_cancel [AddGroup α] (a b : List α) (hb : b.length = a.length) :
    List.zipWith (fun x y => x - y) (List.zipWith (fun x y => x + y) a b) b = a := by
  induction a generalizing b with
  | nil => simp
  | cons x xs ih =>
    cases b with
    | nil => simp at hb
    | cons y ys =>
      simp only [List.zipWith_cons_cons]
      rw [add_sub_cancel_right, ih ys (by simpa using hb)]

/-- C1: for matrices `a` and `b` satisfying the size invariant, `mult_naive`
fails with `DimensionMismatch` exactly when `a.cols ≠ b.rows`; otherwise it
succeeds with a matrix of shape `(a.rows, b.cols)` whose cell `(i, j)` is the
sum over `k` in `0..a.cols` of `a(i, k) * b(k, j)`, accumulated with `k`
ascending from the zero/default seed. -/
theorem C1_mult_naive_contract [Zero α] [Add α] [Mul α] (a b : Matrix α)
    (ha : Inv a) (hb : Inv b) :
    (a.cols ≠ b.rows →
      ∃ msg, a.mult_naive b = some (Except.error (MatrixError.DimensionMismatch msg))) ∧
    (a.cols = b.rows →
      ∃ c, a.mult_naive b = some (Except.ok c) ∧ c.rows = a.rows ∧
        c.cols = b.cols ∧ c.values.length = a.rows * b.cols ∧
        ∀ i j, i < a.rows → j < b.cols →
          c.values[i * b.cols + j]? =
            some ((List.range a.cols).foldl
              (fun sum k =>
                sum + a.values.getD (i * a.cols + k) 0 *
                  b.values.getD (k * b.cols + j) 0) 0)) := by
  constructor
  · intro hne
    exact ⟨"Cannot multiply  matricies of dimensions " ++ toString a.rows ++ "x" ++
        toString a.cols ++ " and " ++ toString b.rows ++ "x" ++ toString b.cols,
      by unfold Matrix.mult_naive; rw [if_pos (by simpa using hne)]⟩
  · intro hdim
    exact mult_naive_char a b ha hb hdim

/-- Witness for C1 at the repository's own `check_naive` test vectors. -/
theorem C1_mult_naive_contract_witness :
    ∃ c, (Matrix.mk 2 3 ([1, 2, 3, 4, 5, 6] : List Int)).mult_naive
        (Matrix.mk 3 2 [7, 8, 9, 10, 11, 12]) = some (Except.ok c) ∧
      c.rows = 2 ∧ c.cols = 2 ∧ c.values[1 * 2 + 1]? = some 154 := by
  obtain ⟨c, hc, hr, hcc, hlen, helem⟩ :=
    (C1_mult_naive_contract (Matrix.mk 2 3 ([1, 2, 3, 4, 5, 6] : List Int))
      (Matrix.mk 3 2 [7, 8, 9, 10, 11, 12]) rfl rfl).2 rfl
  exact ⟨c, hc, hr, hcc,
    (helem 1 1 (by decide) (by decide)).trans (by decide)⟩

/-- C3: on a matrix satisfying the size invariant, `value_at` never panics; it
returns the element at flat index `row * cols + col` when both coordinates are
in range and fails with `InvalidIndex` otherwise. -/
theorem C3_value_at_contract [Zero α] (m : Matrix α) (row col : Nat) (h : Inv m) :
    (m.value_at row col).isSome ∧
    (row < m.rows ∧ col < m.cols →
      m.value_at row col = some (Except.ok (m.values.getD (row * m.cols + col) 0))) ∧
    (row ≥ m.rows ∨ col ≥ m.cols →
      ∃ msg, m.value_at row col = some (Except.error (MatrixError.InvalidIndex msg))) := by
  by_cases hc : row < m.rows ∧ col < m.cols
  · have hlt : row * m.cols + col < m.values.length := by
      rw [h]; exact flatIdx_lt hc.1 hc.2
    have hok : m.value_at row col
        = some (Except.ok (m.values.getD (row * m.cols + col) 0)) := by
      unfold Matrix.value_at
      rw [if_pos (by simp [hc.1, hc.2]), List.getElem?_eq_getElem hlt,
        List.getD_eq_getElem?_getD, List.getElem?_eq_getElem hlt]
      rfl
    exact ⟨by rw [hok]; rfl, fun _ => hok, fun hge => False.elim (by omega)⟩
  · have hcond : ¬((row < m.rows && col < m.cols) = true) := by simpa using hc
    have herr : m.value_at row col = some (Except.error (MatrixError.InvalidIndex
        ("Index (" ++ toString row ++ ", " ++ toString col ++
          ") is out of bounds for matrix of size " ++ toString m.rows ++ "x" ++
          toString m.cols))) := by
      unfold Matrix.value_at
      rw [if_neg hcond]
    exact ⟨by rw [herr]; rfl, fun hin => absurd hin hc, fun _ => ⟨_, herr⟩⟩

/-- Witness for C3: in-bounds and out-of-bounds access on a 2x2 matrix. -/
theorem C3_value_at_contract_witness :
    (Matrix.mk 2 2 ([10, 20, 30, 40] : List Int)).value_at 1 0
        = some (Except.ok 30) ∧
    ∃ msg, (Matrix.mk 2 2 ([10, 20, 30, 40] : List Int)).value_at 2 0
        = some (Except.error (MatrixError.InvalidIndex msg)) := by
  constructor
  · have h := (C3_value_at_contract (Matrix.mk 2 2 ([10, 20, 30, 40] : List Int))
      1 0 rfl).2.1 ⟨by decide, by decide⟩
    exact h.trans (by decide)
  · exact (C3_value_at_contract (Matrix.mk 2 2 ([10, 20, 30, 40] : List Int))
      2 0 rfl).2.2 (Or.inl (by decide))

/-- C4: `add` and `subtract` succeed exactly on identical shapes, producing
the index-for-index pairwise sum respectively difference in storage order;
on mismatched shapes both fail with `DimensionMismatch` and `subtract` leaves
its receiver unchanged (`add` is pure and never mutates). -/
theorem C4_add_subtract_contract [Add α] [Sub α] (a b : Matrix α)
    (ha : Inv a) (hb : Inv b) :
    (a.rows = b.rows ∧ a.cols = b.cols →
      a.add b = Except.ok ⟨a.rows, a.cols,
        List.zipWith (fun x y => x + y) a.values b.values⟩ ∧
      a.subtract b = some (⟨a.rows, a.cols,
        List.zipWith (fun x y => x - y) a.values b.values⟩, none)) ∧
    (a.rows ≠ b.rows ∨ a.cols ≠ b.cols →
      (∃ msg, a.add b = Except.error (MatrixError.DimensionMismatch msg)) ∧
      (∃ msg, a.subtract b = some (a, some (MatrixError.DimensionMismatch msg)))) := by
  constructor
  · rintro ⟨hr, hc⟩
    have hcond : ¬((a.rows != b.rows || a.cols != b.cols) = true) := by
      simp [hr, hc]
    have hab : b.values.length = a.values.length := by rw [hb, ha, hr, hc]
    constructor
    · unfold Matrix.add
      rw [if_neg hcond]
    · unfold Matrix.subtract
      rw [if_neg hcond]
      simp only [foldlM_mut_char (fun x y => x - y) a.values b.values hab]
      rfl
  · intro hne
    have hcond : (a.rows != b.rows || a.cols != b.cols) = true := by
      rcases hne with hno | hno <;> simp [hno]
    constructor
    · exact ⟨_, by unfold Matrix.add; rw [if_pos hcond]⟩
    · exact ⟨_, by unfold Matrix.subtract; rw [if_pos hcond]⟩

/-- Witness for C4: the repository's `check_addition` vectors, plus a shape
mismatch for `subtract`. -/
theorem C4_add_subtract_contract_witness :
    (Matrix.mk 2 2 ([1, 2, 3, 4] : List Int)).add (Matrix.mk 2 2 [5, 6, 7, 8])
        = Except.ok (Matrix.mk 2 2 [6, 8, 10, 12]) ∧
    ∃ msg, (Matrix.mk 2 2 ([1, 2, 3, 4] : List Int)).subtract (Matrix.mk 1 2 [5, 6])
        = some (Matrix.mk 2 2 [1, 2, 3, 4], some (MatrixError.DimensionMismatch msg)) := by
  constructor
  · have h := ((C4_add_subtract_contract (Matrix.mk 2 2 ([1, 2, 3, 4] : List Int))
      (Matrix.mk 2 2 [5, 6, 7, 8]) rfl rfl).1 ⟨rfl, rfl⟩).1
    exact h.trans (by decide)
  · exact ((C4_add_subtract_contract (Matrix.mk 2 2 ([1, 2, 3, 4] : List Int))
      (Matrix.mk 1 2 [5, 6]) rfl rfl).2 (Or.inl (by decide))).2

/-- C7: `identity order` always succeeds with an `order × order` matrix that
carries `one()` on the diagonal and `zero()` elsewhere; order `0` yields the
empty `0 × 0` matrix. -/
theorem C7_identity_contract (α : Type) [Zero α] [One α] :
    (∀ order : Nat, ∃ idm, Matrix.identity α order = some idm ∧
      idm.rows = order ∧ idm.cols = order ∧ idm.values.length = order * order ∧
      ∀ i j, i < order → j < order →
        idm.values[i * order + j]? = some (if i = j then (1 : α) else 0)) ∧
    Matrix.identity α 0 = some ⟨0, 0, []⟩ :=
  ⟨identity_char α, rfl⟩

/-- A single step of the `add_mut`/`subtract` loop preserves the length of
the state vector whenever it succeeds. -/
theorem mutStep_length (b : List α) (op : α → α → α) :
    ∀ (v : List α) (i : Nat) (v2 : List α),
      (do let x ← v[i]?
          let y ← b[i]?
          listSet? v i (op x y)) = some v2 → v2.length = v.length := by
  intro v i v2 hstep
  obtain ⟨x, hx, h2⟩ := Option.bind_eq_some.mp hstep
  obtain ⟨y, hy, h3⟩ := Option.bind_eq_some.mp h2
  unfold listSet? at h3
  by_cases hlt : i < v.length
  · rw [if_pos hlt] at h3
    rw [← Option.some.inj h3]
    exact List.length_set v i (op x y)
  · rw [if_neg hlt] at h3
    exact absurd h3 (by simp)

/-- C2: the size invariant `values.length = rows * cols` is established by
construction from consistent inputs and re-established by every successful
mutation — `set_values` (which succeeds exactly when the new length matches
the capacity and otherwise fails with `DimensionMismatch` leaving the matrix
unchanged), `add_mut`, `subtract`, and `mult_scalar`. -/
theorem C2_invariant_maintained (α : Type) [Add α] [Sub α] [Mul α] :
    (∀ (r c : Nat) (v : List α), v.length = r * c → Inv (Matrix.new r c v)) ∧
    (∀ (m : Matrix α) (v : List α), Inv m →
      (v.length = m.rows * m.cols → m.set_values v = (⟨m.rows, m.cols, v⟩, none)) ∧
      (v.length ≠ m.rows * m.cols →
        ∃ msg, m.set_values v = (m, some (MatrixError.DimensionMismatch msg))) ∧
      Inv (m.set_values v).1) ∧
    (∀ (m b : Matrix α) (r : Matrix α × Option MatrixError),
      Inv m → m.add_mut b = some r → Inv r.1) ∧
    (∀ (m b : Matrix α) (r : Matrix α × Option MatrixError),
      Inv m → m.subtract b = some r → Inv r.1) ∧
    (∀ (m : Matrix α) (k : α), Inv m → Inv (m.mult_scalar k)) := by
  refine ⟨fun r c v hv => hv, ?_, ?_, ?_, ?_⟩
  · intro m v hm
    by_cases hlen : v.length = m.rows * m.cols
    · have heq : m.set_values v = (⟨m.rows, m.cols, v⟩, none) := by
        unfold Matrix.set_values
        rw [if_pos (by simpa using hlen)]
      refine ⟨fun _ => heq, fun hne => absurd hlen hne, ?_⟩
      rw [heq]
      exact hlen
    · have heq : m.set_values v = (m, some (MatrixError.DimensionMismatch
          ("Matrix has capacity of " ++ toString (m.rows * m.cols) ++
            ", gave it " ++ toString v.length ++ " values"))) := by
        unfold Matrix.set_values
        rw [if_neg (by simpa using hlen)]
      refine ⟨fun hx => absurd hx hlen, fun _ => ⟨_, heq⟩, ?_⟩
      rw [heq]
      exact hm
  · intro m b r hm hr
    unfold Matrix.add_mut at hr
    by_cases hcond : (m.rows != b.rows || m.cols != b.cols) = true
    · rw [if_pos hcond] at hr
      rw [← Option.some.inj hr]
      exact hm
    · rw [if_neg hcond] at hr
      obtain ⟨v, hfold, hmap⟩ := Option.map_eq_some'.mp hr
      have hlenv : v.length = m.values.length :=
        foldlM_length_invariant _ (mutStep_length b.values (fun x y => x + y))
          (List.range m.values.length) m.values v hfold
      rw [← hmap]
      exact hlenv.trans hm
  · intro m b r hm hr
    unfold Matrix.subtract at hr
    by_cases hcond : (m.rows != b.rows || m.cols != b.cols) = true
    · rw [if_pos hcond] at hr
      rw [← Option.some.inj hr]
      exact hm
    · rw [if_neg hcond] at hr
      obtain ⟨v, hfold, hmap⟩ := Option.map_eq_some'.mp hr
      have hlenv : v.length = m.values.length :=
        foldlM_length_invariant _ (mutStep_length b.values (fun x y => x - y))
          (List.range m.values.length) m.values v hfold
      rw [← hmap]
      exact hlenv.trans hm
  · intro m k hm
    unfold Matrix.mult_scalar Inv
    simpa using hm

/-- Witness for C2: a successful `set_values` on a 2x2 matrix replaces the
backing vector and keeps the invariant. -/
theorem C2_invariant_maintained_witness :
    (Matrix.mk 2 2 ([5, 6, 7, 8] : List Int)).set_values [1, 2, 3, 4]
      = (Matrix.mk 2 2 [1, 2, 3, 4], none) := by
  have h := ((C2_invariant_maintained Int).2.1
    (Matrix.mk 2 2 [5, 6, 7, 8]) [1, 2, 3, 4] rfl).1 rfl
  exact h.trans (by decide)

/-- Witness for C7: the 2x2 integer identity, off- and on-diagonal. -/
theorem C7_identity_contract_witness :
    ∃ idm, Matrix.identity Int 2 = some idm ∧
      idm.values[0 * 2 + 1]? = some 0 ∧ idm.values[1 * 2 + 1]? = some 1 := by
  obtain ⟨idm, hid, _, _, _, hval⟩ := (C7_identity_contract Int).1 2
  exact ⟨idm, hid,
    (hval 0 1 (by decide) (by decide)).trans (by decide),
    (hval 1 1 (by decide) (by decide)).trans (by decide)⟩

/-- C5: on a matrix satisfying the size invariant, `transpose` completes with
the dimensions swapped and element `(i, j)` of the output equal to element
`(j, i)` of the input, over a freshly built backing vector; transposing twice
gives back the original matrix. -/
theorem C5_transpose_involution [Zero α] (m : Matrix α) (h : Inv m) :
    ∃ tm, m.transpose = some tm ∧ tm.rows = m.cols ∧ tm.cols = m.rows ∧ Inv tm ∧
      (∀ i j, i < m.cols → j < m.rows →
        tm.values[i * m.rows + j]? = m.values[j * m.cols + i]?) ∧
      tm.transpose = some m := by
  obtain ⟨tm, htm, hr, hc, hlen, hget⟩ := transpose_char m h
  have hinv : Inv tm := by
    unfold Inv
    rw [hlen, hr, hc, Nat.mul_comm]
  obtain ⟨tm2, htm2, hr2, hc2, hlen2, hget2⟩ := transpose_char tm hinv
  have hg2 : ∀ i2 j2, i2 < m.rows → j2 < m.cols →
      tm2.values[i2 * m.cols + j2]? = tm.values[j2 * m.rows + i2]? := by
    intro i2 j2 h1 h2
    have hx := hget2 i2 j2 (by rw [hc]; exact h1) (by rw [hr]; exact h2)
    rwa [hr, hc] at hx
  have hvals : tm2.values = m.values := by
    apply List.ext_getElem?
    intro p
    by_cases hp : p < m.rows * m.cols
    · have hcols : 0 < m.cols := by
        rcases Nat.eq_zero_or_pos m.cols with hz | hz
        · rw [hz, Nat.mul_zero] at hp
          exact absurd hp (Nat.not_lt_zero p)
        · exact hz
      have hj : p / m.cols < m.rows :=
        Nat.div_lt_of_lt_mul (Nat.mul_comm m.rows m.cols ▸ hp)
      have hi : p % m.cols < m.cols := Nat.mod_lt p hcols
      have hpe : (p / m.cols) * m.cols + p % m.cols = p := by
        rw [Nat.mul_comm]
        exact Nat.div_add_mod p m.cols
      calc tm2.values[p]? = tm2.values[(p / m.cols) * m.cols + p % m.cols]? := by
            rw [hpe]
      _ = tm.values[(p % m.cols) * m.rows + p / m.cols]? := hg2 _ _ hj hi
      _ = m.values[(p / m.cols) * m.cols + p % m.cols]? := hget _ _ hi hj
      _ = m.values[p]? := by rw [hpe]
    · have hlen2b : tm2.values.length ≤ p := by
        rw [hlen2, hr, hc, Nat.mul_comm]
        omega
      rw [List.getElem?_eq_none hlen2b, List.getElem?_eq_none (by rw [h]; omega)]
  have hmeq : tm2 = m := Matrix.eq_of_fields (hr2.trans hc) (hc2.trans hr) hvals
  exact ⟨tm, htm, hr, hc, hinv, hget, by rw [htm2, hmeq]⟩

/-- Witness for C5 at the repository's `check_transpose` vector. -/
theorem C5_transpose_involution_witness :
    ∃ tm, (Matrix.mk 2 3 ([1, -3, 5, -9, 4, 7] : List Int)).transpose = some tm ∧
      tm.rows = 3 ∧ tm.cols = 2 ∧
      tm.transpose = some (Matrix.mk 2 3 [1, -3, 5, -9, 4, 7]) := by
  obtain ⟨tm, htm, hr, hc, _, _, hinvol⟩ :=
    C5_transpose_involution (Matrix.mk 2 3 ([1, -3, 5, -9, 4, 7] : List Int)) rfl
  exact ⟨tm, htm, hr, hc, hinvol⟩

/-- C9: once the shape precondition of an operation has been validated and the
operands satisfy the size invariant, every internal index of `transpose`,
`mult_naive`, `add_mut`, and `subtract` is in bounds, so none of them panics
(the embedded computation is `some`). -/
theorem C9_no_internal_panics [Zero α] [Add α] [Sub α] [Mul α] (a b : Matrix α) :
    (Inv a → a.transpose.isSome) ∧
    (Inv a → Inv b → (a.mult_naive b).isSome) ∧
    (Inv a → Inv b → a.rows = b.rows → a.cols = b.cols →
      (a.add_mut b).isSome ∧ (a.subtract b).isSome) := by
  refine ⟨?_, ?_, ?_⟩
  · intro ha
    obtain ⟨tm, htm, _⟩ := transpose_char a ha
    rw [htm]
    rfl
  · intro ha hb
    by_cases hdim : a.cols = b.rows
    · obtain ⟨c, hmul, _⟩ := mult_naive_char a b ha hb hdim
      rw [hmul]
      rfl
    · have hcond : (a.cols != b.rows) = true := by simpa using hdim
      unfold Matrix.mult_naive
      rw [if_pos hcond]
      rfl
  · intro ha hb hr hc
    have hcond : ¬((a.rows != b.rows || a.cols != b.cols) = true) := by
      simp [hr, hc]
    have hab : b.values.length = a.values.length := by rw [hb, ha, hr, hc]
    constructor
    · unfold Matrix.add_mut
      rw [if_neg hcond]
      simp only [foldlM_mut_char (fun x y => x + y) a.values b.values hab]
      rfl
    · unfold Matrix.subtract
      rw [if_neg hcond]
      simp only [foldlM_mut_char (fun x y => x - y) a.values b.values hab]
      rfl

/-- Witness for C9: the panic-freedom conclusions at concrete matrices. -/
theorem C9_no_internal_panics_witness :
    ((Matrix.mk 2 2 ([1, 2, 3, 4] : List Int)).mult_naive
      (Matrix.mk 2 2 [5, 6, 7, 8])).isSome ∧
    ((Matrix.mk 2 2 ([1, 2, 3, 4] : List Int)).subtract
      (Matrix.mk 2 2 [5, 6, 7, 8])).isSome := by
  constructor
  · exact (C9_no_internal_panics (Matrix.mk 2 2 ([1, 2, 3, 4] : List Int))
      (Matrix.mk 2 2 [5, 6, 7, 8])).2.1 rfl rfl
  · exact ((C9_no_internal_panics (Matrix.mk 2 2 ([1, 2, 3, 4] : List Int))
      (Matrix.mk 2 2 [5, 6, 7, 8])).2.2 rfl rfl rfl rfl).2

/-- C6: multiplying a matrix that satisfies the size invariant by
`identity(m.cols)` on the right reproduces the matrix exactly. -/
theorem C6_mult_identity_right (α : Type) [NonAssocSemiring α] (m : Matrix α)
    (h : Inv m) :
    ∃ idm, Matrix.identity α m.cols = some idm ∧
      m.mult_naive idm = some (Except.ok m) := by
  obtain ⟨idm, hid, hir, hic, hilen, hival⟩ := identity_char α m.cols
  have hinv : Inv idm := by
    unfold Inv
    rw [hilen, hir, hic]
  obtain ⟨c, hmul, hcr, hcc, hclen, hcval⟩ := mult_naive_char m idm h hinv hir.symm
  have hvals : c.values = m.values := by
    apply List.ext_getElem?
    intro p
    by_cases hp : p < m.rows * m.cols
    · have hcols : 0 < m.cols := by
        rcases Nat.eq_zero_or_pos m.cols with hz | hz
        · rw [hz, Nat.mul_zero] at hp
          exact absurd hp (Nat.not_lt_zero p)
        · exact hz
      have hi : p / m.cols < m.rows :=
        Nat.div_lt_of_lt_mul (Nat.mul_comm m.rows m.cols ▸ hp)
      have hj : p % m.cols < m.cols := Nat.mod_lt p hcols
      have hpe : p / m.cols * m.cols + p % m.cols = p := by
        rw [Nat.mul_comm]
        exact Nat.div_add_mod p m.cols
      have hentry := hcval (p / m.cols) (p % m.cols) hi (by rw [hic]; exact hj)
      rw [hic] at hentry
      have hsum : (List.range m.cols).foldl
          (fun sum k => sum + m.values.getD (p / m.cols * m.cols + k) 0 *
            idm.values.getD (k * m.cols + p % m.cols) 0) 0
          = m.values.getD (p / m.cols * m.cols + p % m.cols) 0 := by
        rw [foldl_add_eq_sum, zero_add]
        have h1 : ∀ k ∈ Finset.range m.cols, k ≠ p % m.cols →
            m.values.getD (p / m.cols * m.cols + k) 0 *
              idm.values.getD (k * m.cols + p % m.cols) 0 = 0 := by
          intro k hk hkne
          rw [List.getD_eq_getElem?_getD idm.values,
            hival k (p % m.cols) (Finset.mem_range.mp hk) hj, if_neg hkne]
          simp
        have h2 := Finset.sum_eq_single (p % m.cols) h1
          (fun habs => absurd (Finset.mem_range.mpr hj) habs)
        rw [h2, List.getD_eq_getElem?_getD idm.values, hival _ _ hj hj, if_pos rfl]
        simp
      have hmlt : p / m.cols * m.cols + p % m.cols < m.values.length := by
        rw [h, hpe]
        exact hp
      calc c.values[p]? = c.values[p / m.cols * m.cols + p % m.cols]? := by rw [hpe]
      _ = some (m.values.getD (p / m.cols * m.cols + p % m.cols) 0) := by
            rw [hentry, hsum]
      _ = m.values[p / m.cols * m.cols + p % m.cols]? := by
            rw [List.getD_eq_getElem?_getD, List.getElem?_eq_getElem hmlt]
            rfl
      _ = m.values[p]? := by rw [hpe]
    · have h1 : c.values.length ≤ p := by
        rw [hclen, hic]
        omega
      rw [List.getElem?_eq_none h1, List.getElem?_eq_none (by rw [h]; omega)]
  have hmeq : c = m := Matrix.eq_of_fields hcr (hcc.trans hic) hvals
  exact ⟨idm, hid, by rw [hmul, hmeq]⟩

/-- Witness for C6 on a concrete 2x2 integer matrix. -/
theorem C6_mult_identity_right_witness :
    ∃ idm, Matrix.identity Int 2 = some idm ∧
      (Matrix.mk 2 2 ([1, 2, 3, 4] : List Int)).mult_naive idm
        = some (Except.ok (Matrix.mk 2 2 [1, 2, 3, 4])) :=
  C6_mult_identity_right Int (Matrix.mk 2 2 [1, 2, 3, 4]) rfl

/-- C8: for same-shape matrices satisfying the size invariant, addition is
commutative and subtraction undoes it: `a.add b` and `b.add a` produce the
same matrix `c`, and `c.subtract b` restores `a` exactly. -/
theorem C8_add_comm_sub_inverse [AddCommGroup α] (a b : Matrix α)
    (ha : Inv a) (hb : Inv b) (hr : a.rows = b.rows) (hc : a.cols = b.cols) :
    ∃ c, a.add b = Except.ok c ∧ b.add a = Except.ok c ∧
      c.subtract b = some (a, none) := by
  have hcond : ¬((a.rows != b.rows || a.cols != b.cols) = true) := by
    simp [hr, hc]
  have hcond2 : ¬((b.rows != a.rows || b.cols != a.cols) = true) := by
    simp [hr, hc]
  have hab : b.values.length = a.values.length := by rw [hb, ha, hr, hc]
  refine ⟨⟨a.rows, a.cols, List.zipWith (fun x y => x + y) a.values b.values⟩,
    ?_, ?_, ?_⟩
  · unfold Matrix.add
    rw [if_neg hcond]
  · unfold Matrix.add
    rw [if_neg hcond2,
      List.zipWith_comm_of_comm (fun x y => x + y) (fun x y => add_comm x y)
        b.values a.values, hr, hc]
  · unfold Matrix.subtract
    rw [if_neg (by simp [hr, hc])]
    have hzlen : b.values.length
        = (List.zipWith (fun x y => x + y) a.values b.values).length := by
      rw [List.length_zipWith, hab]
      simp
    have hfold := foldlM_mut_char (fun x y => x - y)
      (List.zipWith (fun x y => x + y) a.values b.values) b.values hzlen
    exact (congrArg (Option.map fun v =>
      ((⟨a.rows, a.cols, v⟩ : Matrix α), (none : Option MatrixError))) hfold).trans
      (by rw [zipWith_add_sub_cancel a.values b.values hab]; rfl)

/-- Witness for C8 on concrete 2x2 integer matrices. -/
theorem C8_add_comm_sub_inverse_witness :
    ∃ c, (Matrix.mk 2 2 ([1, 2, 3, 4] : List Int)).add (Matrix.mk 2 2 [5, 6, 7, 8])
        = Except.ok c ∧
      (Matrix.mk 2 2 ([5, 6, 7, 8] : List Int)).add (Matrix.mk 2 2 [1, 2, 3, 4])
        = Except.ok c ∧
      c.subtract (Matrix.mk 2 2 [5, 6, 7, 8])
        = some (Matrix.mk 2 2 [1, 2, 3, 4], none) :=
  C8_add_comm_sub_inverse (Matrix.mk 2 2 [1, 2, 3, 4]) (Matrix.mk 2 2 [5, 6, 7, 8])
    rfl rfl rfl rfl

/-- C10: multiplying an `r × 0` matrix by a `0 × c` matrix (both with empty
backing vectors) succeeds with an `r × c` matrix whose every cell is the
default zero, each dot product being the empty accumulation on the seed. -/
theorem C10_mult_empty_inner [Zero α] [Add α] [Mul α] (r c : Nat) :
    (Matrix.mk r 0 ([] : List α)).mult_naive (Matrix.mk 0 c ([] : List α)) =
      some (Except.ok (Matrix.mk r c (List.replicate (r * c) (0 : α)))) := by
  obtain ⟨cm, hmul, hcr, hcc, hclen, hcval⟩ := mult_naive_char
    (Matrix.mk r 0 ([] : List α)) (Matrix.mk 0 c ([] : List α))
    (by simp [Inv]) (by simp [Inv]) rfl
  have hclen2 : cm.values.length = r * c := hclen
  have hvals : cm.values = List.replicate (r * c) (0 : α) := by
    apply List.ext_getElem?
    intro p
    by_cases hp : p < r * c
    · have hc0 : 0 < c := by
        rcases Nat.eq_zero_or_pos c with hz | hz
        · rw [hz, Nat.mul_zero] at hp
          exact absurd hp (Nat.not_lt_zero p)
        · exact hz
      have hi : p / c < r := Nat.div_lt_of_lt_mul (Nat.mul_comm r c ▸ hp)
      have hj : p % c < c := Nat.mod_lt p hc0
      have hpe : p / c * c + p % c = p := by
        rw [Nat.mul_comm]
        exact Nat.div_add_mod p c
      have hzero : cm.values[p / c * c + p % c]? = some (0 : α) :=
        (hcval (p / c) (p % c) hi hj).trans rfl
      rw [hpe] at hzero
      rw [hzero, List.getElem?_replicate, if_pos hp]
    · rw [List.getElem?_eq_none (by rw [hclen2]; omega),
        List.getElem?_eq_none (by rw [List.length_replicate]; omega)]
  have hmeq : cm = Matrix.mk r c (List.replicate (r * c) (0 : α)) :=
    Matrix.eq_of_fields hcr hcc hvals
  rw [hmul, hmeq]

end LinRust
